import Mathlib

/-!
Verification of the hybrid RAG pipeline core
(`skills/rag-systems/scripts/hybrid_rag_pipeline.py`).

Text is modelled as `List Char` (a Python `str` is a sequence of code
points), floats as `ℚ` (the fused-score arithmetic on the inputs of
interest involves only exact small rationals), Python `dict` as an
insertion-ordered association list, and a raised exception as
`Except.error`.  The external collaborators (the `hashlib` MD5 digest,
the `rank_bm25` scorer and the chroma vector store) are parameters:
theorems quantify over them.
-/

/-- Python whitespace predicate for `str.strip` / `str.split` (ASCII range;
the inputs at issue contain no exotic Unicode whitespace). -/
def pyIsSpace (c : Char) : Bool :=
  c == ' ' || c == '\t' || c == '\n' || c == '\r' || c == Char.ofNat 11 || c == Char.ofNat 12

/-- Drop trailing whitespace, as Python `str.rstrip()`. -/
def rstrip (s : List Char) : List Char :=
  (s.reverse.dropWhile pyIsSpace).reverse

/-- Python `str.strip()`: drop leading then trailing whitespace. -/
def pyStrip (s : List Char) : List Char :=
  rstrip (s.dropWhile pyIsSpace)

/-- Helper for `pySplitWs`: accumulate the current word (reversed) while
scanning. -/
def splitWsAux : List Char → List Char → List (List Char)
  | [], acc => if acc = [] then [] else [acc.reverse]
  | c :: cs, acc =>
    if pyIsSpace c then
      if acc = [] then splitWsAux cs [] else acc.reverse :: splitWsAux cs []
    else splitWsAux cs (c :: acc)

/-- Python `str.split()` with no separator: split on whitespace runs,
discarding empty pieces. -/
def pySplitWs (s : List Char) : List (List Char) := splitWsAux s []

/-- Helper for `splitParas`: Python `str.split("\n\n")`. -/
def splitParasAux : List Char → List Char → List (List Char)
  | [], acc => [acc.reverse]
  | '\n' :: '\n' :: cs, acc => acc.reverse :: splitParasAux cs []
  | c :: cs, acc => splitParasAux cs (c :: acc)

/-- Python `text.split("\n\n")` (keeps empty pieces, non-overlapping scan). -/
def splitParas (s : List Char) : List (List Char) := splitParasAux s []

/-- Helper for `splitLines`: Python `str.split("\n")`. -/
def splitLinesAux : List Char → List Char → List (List Char)
  | [], acc => [acc.reverse]
  | c :: cs, acc =>
    if c = '\n' then acc.reverse :: splitLinesAux cs [] else splitLinesAux cs (c :: acc)

/-- Python `text.split("\n")`. -/
def splitLines (s : List Char) : List (List Char) := splitLinesAux s []

/-- Terminal sentence punctuation of the `_split_sentences` regex. -/
def isSentEnd (c : Char) : Bool := c == '.' || c == '!' || c == '?'

/-- Helper for `splitSentences`; the Bool records that we are inside the
whitespace run of a previous split (the greedy regex match), which is
consumed. -/
def splitSentencesAux : List Char → Bool → List Char → List (List Char)
  | [], _, acc => [acc.reverse]
  | c :: cs, skipping, acc =>
    if skipping && pyIsSpace c then splitSentencesAux cs true acc
    else if pyIsSpace c && (match acc with | p :: _ => isSentEnd p | [] => false) then
      acc.reverse :: splitSentencesAux cs true []
    else splitSentencesAux cs false (c :: acc)

/-- `AdaptiveChunker._split_sentences`: Python
`re.split(r'(?<=[.!?])\s+', text)` — split at whitespace runs preceded by
terminal punctuation, consuming the whitespace. -/
def splitSentences (s : List Char) : List (List Char) := splitSentencesAux s false []

/-- Python `sep.join(pieces)` for a separator string. -/
def joinWith (sep : List Char) : List (List Char) → List Char
  | [] => []
  | [w] => w
  | w :: ws => w ++ sep ++ joinWith sep ws

/-- Python `s.startswith(pre)` on char lists. -/
def beginsWith (pre s : List Char) : Bool := s.take pre.length == pre

/-- Python `needle in hay` substring test. -/
def containsSub (needle : List Char) : List Char → Bool
  | [] => needle == []
  | c :: cs => beginsWith needle (c :: cs) || containsSub needle cs

/-- Python `str.lower()` (ASCII case folding suffices here). -/
def pyLower (s : List Char) : List Char := s.map Char.toLower

/-- `RAGConfig` from the source (dataclass, no validation). -/
structure RAGConfig where
  chunk_size : Nat := 512
  chunk_overlap : Nat := 50
  min_chunk_size : Nat := 100
  top_k_initial : Nat := 20
  top_k_final : Nat := 5
  bm25_weight : ℚ := 3/10
  vector_weight : ℚ := 7/10
  embedding_model : List Char := "all-MiniLM-L6-v2".data
  collection_name : List Char := "documents".data
  persist_directory : List Char := "./chroma_db".data
deriving DecidableEq

/-- The default `RAGConfig()`. -/
def defaultRAGConfig : RAGConfig := {}

/-- Metadata values (the dataclass stores `Dict[str, Any]`; the system only
ever inserts strings, naturals and booleans). -/
inductive MVal where
  | s : List Char → MVal
  | n : Nat → MVal
  | b : Bool → MVal
deriving DecidableEq

/-- Metadata dictionary, insertion ordered. -/
def Meta := List (List Char × MVal)
deriving DecidableEq

/-- Python `d[k] = v` on an insertion-ordered dict: replace in place or
append at the end. -/
def setKey (k : List Char) (v : MVal) : Meta → Meta
  | [] => [(k, v)]
  | (k₁, v₁) :: rest => if k₁ = k then (k, v) :: rest else (k₁, v₁) :: setKey k v rest

/-- `Chunk` dataclass: content, metadata and content-derived id. -/
structure Chunk where
  content : List Char
  metadata : Meta
  chunk_id : List Char
deriving DecidableEq

/-- `Chunk(content=..., metadata=...)` with no explicit id:
`__post_init__` derives the id from the content alone via the (external)
MD5 digest, here the parameter `hash`. -/
def mkChunk (hash : List Char → List Char) (content : List Char) (meta : Meta) : Chunk :=
  { content := content, metadata := meta, chunk_id := hash content }

/-- State of the paragraph / sentence accumulation loops in `_chunk_text`. -/
structure ChunkAcc where
  chunks : List (List Char)
  current : List Char

/-- One iteration of the sentence loop in `_chunk_text` (the long-paragraph
branch). -/
def procSentence (size : Nat) (acc : ChunkAcc) (sent : List Char) : ChunkAcc :=
  if acc.current.length + sent.length ≤ size then
    { acc with current := acc.current ++ sent ++ [' '] }
  else
    { chunks := acc.chunks ++ (if acc.current = [] then [] else [acc.current]),
      current := sent ++ [' '] }

/-- One iteration of the paragraph loop in `_chunk_text`. -/
def procPara (size : Nat) (acc : ChunkAcc) (para : List Char) : ChunkAcc :=
  if acc.current.length + para.length ≤ size then
    { acc with current := acc.current ++ para ++ ['\n', '\n'] }
  else if size < para.length then
    (splitSentences para).foldl (procSentence size)
      { chunks := acc.chunks ++ (if acc.current = [] then [] else [acc.current]),
        current := [] }
  else
    { chunks := acc.chunks ++ (if acc.current = [] then [] else [acc.current]),
      current := para ++ ['\n', '\n'] }

/-- `_chunk_text` before the overlap step: accumulate paragraphs (splitting
oversized ones at sentence boundaries) and flush the final buffer. -/
def chunkTextRaw (cfg : RAGConfig) (text : List Char) : List (List Char) :=
  let fin := (splitParas text).foldl (procPara cfg.chunk_size) ⟨[], []⟩
  fin.chunks ++ (if fin.current = [] then [] else [fin.current])

/-- The trailing `n` words of a chunk (`prev_words[-overlap:]`,
`overlap > 0`). -/
def lastWords (n : Nat) (s : List Char) : List (List Char) :=
  let ws := pySplitWs s
  ws.drop (ws.length - n)

/-- `_add_overlap` body for chunks after the first: each is prefixed with
the trailing words of its raw predecessor. -/
def overlapRest (n : Nat) (prev : List Char) : List (List Char) → List (List Char)
  | [] => []
  | c :: cs => (joinWith [' '] (lastWords n prev) ++ ' ' :: c) :: overlapRest n c cs

/-- `AdaptiveChunker._add_overlap`. -/
def addOverlap (n : Nat) : List (List Char) → List (List Char)
  | [] => []
  | c :: cs => if n = 0 then c :: cs else c :: overlapRest n c cs

/-- `AdaptiveChunker._chunk_text`. -/
def chunkText (cfg : RAGConfig) (text : List Char) : List (List Char) :=
  addOverlap cfg.chunk_overlap (chunkTextRaw cfg text)

/-- Structural-boundary keywords of `_chunk_code`. -/
def codeBoundaryKws : List (List Char) :=
  ["def ".data, "class ".data, "function ".data, "async ".data]

/-- State of the line loop in `_chunk_code`. -/
structure CodeAcc where
  chunks : List (List Char)
  cur : List (List Char)
  curSize : Nat

/-- One iteration of the line loop in `_chunk_code`. -/
def procCodeLine (size : Nat) (acc : CodeAcc) (line : List Char) : CodeAcc :=
  let lineSize := line.length + 1
  let isBoundary := codeBoundaryKws.any (fun kw => beginsWith kw (pyStrip line))
  let acc1 :=
    if isBoundary ∧ acc.cur ≠ [] then
      { chunks := acc.chunks ++ [joinWith ['\n'] acc.cur], cur := [], curSize := 0 }
    else acc
  let acc2 := { acc1 with cur := acc1.cur ++ [line], curSize := acc1.curSize + lineSize }
  if size ≤ acc2.curSize then
    { chunks := acc2.chunks ++ [joinWith ['\n'] acc2.cur], cur := [], curSize := 0 }
  else acc2

/-- `AdaptiveChunker._chunk_code`. -/
def chunkCode (cfg : RAGConfig) (text : List Char) : List (List Char) :=
  let fin := (splitLines text).foldl (procCodeLine cfg.chunk_size) ⟨[], [], 0⟩
  fin.chunks ++ (if fin.cur = [] then [] else [joinWith ['\n'] fin.cur])

/-- The code indicators of `_is_code`. -/
def codeIndicators : List (List Char) :=
  ["def ".data, "class ".data, "import ".data, "function ".data, "const ".data,
   "let ".data, "var ".data, "public ".data, "private ".data, "static ".data]

/-- `AdaptiveChunker._is_code`: at least two indicators occur as substrings. -/
def isCode (text : List Char) : Bool :=
  2 ≤ (codeIndicators.filter (fun ind => containsSub ind text)).length

/-- The raw candidate chunks for a text: code path or prose path. -/
def rawChunks (cfg : RAGConfig) (text : List Char) : List (List Char) :=
  if isCode text then chunkCode cfg text else chunkText cfg text

/-- `AdaptiveChunker.chunk`: build `Chunk` objects from the raw candidates,
dropping any whose trimmed content is below `min_chunk_size`. -/
def chunkDoc (hash : List Char → List Char) (cfg : RAGConfig)
    (text : List Char) (meta : Meta) : List Chunk :=
  (rawChunks cfg text).enum.filterMap fun p =>
    if cfg.min_chunk_size ≤ (pyStrip p.2).length then
      some (mkChunk hash (pyStrip p.2)
        (setKey "is_code".data (MVal.b (isCode text))
          (setKey "chunk_index".data (MVal.n p.1) meta)))
    else none

/-- Python `scores[cid] = scores.get(cid, 0) + v` on an insertion-ordered
dict: update in place, or append the new key at the end. -/
def dictAdd (m : List (List Char × ℚ)) (k : List Char) (v : ℚ) : List (List Char × ℚ) :=
  match m with
  | [] => [(k, v)]
  | (k₁, v₁) :: rest => if k₁ = k then (k₁, v₁ + v) :: rest else (k₁, v₁) :: dictAdd rest k v

/-- Python `scores.get(k, 0)`. -/
def scoreGet (m : List (List Char × ℚ)) (k : List Char) : ℚ :=
  match m with
  | [] => 0
  | (k₁, v) :: rest => if k₁ = k then v else scoreGet rest k

/-- The RRF accumulation loop of `retrieve`:
`for rank, cid in enumerate(ids): scores[cid] += w / (k + rank + 1)` with
the smoothing constant hardcoded to `k = 60` in the source. -/
def addContribsFrom (w : ℚ) : Nat → List (List Char) → List (List Char × ℚ) → List (List Char × ℚ)
  | _, [], m => m
  | r, cid :: rest, m => addContribsFrom w (r + 1) rest (dictAdd m cid (w / (60 + (r : ℚ) + 1)))

/-- The per-query score map built by `retrieve`: BM25 contributions first,
then vector contributions. -/
def fusedScores (cfg : RAGConfig) (lexIds vecIds : List (List Char)) : List (List Char × ℚ) :=
  addContribsFrom cfg.vector_weight 0 vecIds (addContribsFrom cfg.bm25_weight 0 lexIds [])

/-- Insert into a weakly descending list, after all entries of equal key
(so the insertion sort below is stable, like Python `sorted`). -/
def insOrd {α : Type} (key : α → ℚ) (x : α) : List α → List α
  | [] => [x]
  | y :: ys => if key y < key x then x :: y :: ys else y :: insOrd key x ys

/-- Stable descending sort by a rational key: the embedding of Python
`sorted(l, key=key, reverse=True)` (a stable sort's output is uniquely
determined by the key order and input order). -/
def stableSortDesc {α : Type} (key : α → ℚ) (l : List α) : List α :=
  l.foldl (fun acc x => insOrd key x acc) []

/-- `sorted(scores.keys(), key=lambda x: scores[x], reverse=True)`:
every key carries its (unique) entry, so sorting the entries by value and
projecting is the same ordering. -/
def fusedOrderFull (cfg : RAGConfig) (lexIds vecIds : List (List Char)) : List (List Char) :=
  (stableSortDesc Prod.snd (fusedScores cfg lexIds vecIds)).map Prod.fst

/-- The fused id ranking truncated to `top_k_final`. -/
def fusedOrder (cfg : RAGConfig) (lexIds vecIds : List (List Char)) : List (List Char) :=
  (fusedOrderFull cfg lexIds vecIds).take cfg.top_k_final

/-- `chunk_map = {c.chunk_id: c for c in self.chunks}` followed by the
guarded lookup `chunk_map[cid] if cid in chunk_map` (later duplicates
overwrite earlier ones, hence the reverse search). -/
def lookupChunk (chunks : List Chunk) (cid : List Char) : Option Chunk :=
  chunks.reverse.find? (fun c => c.chunk_id == cid)

/-- `self.chunks[idx].chunk_id` (the index comes from `enumerate` over the
BM25 score array, one score per indexed chunk). -/
def idAt (chunks : List Chunk) (idx : Nat) : List Char :=
  ((chunks.map Chunk.chunk_id).getD idx [])

/-- The pure part of `HybridRetriever.retrieve`, lines 308–345: rank the
BM25 scores, truncate, fuse with the vector ranking by RRF, sort, truncate
and map fused ids back to chunks (silently skipping unknown ids). -/
def retrieveCore (cfg : RAGConfig) (chunks : List Chunk)
    (bm25Scores : List ℚ) (vecIds : List (List Char)) : List Chunk :=
  let bm25Top := (stableSortDesc Prod.snd bm25Scores.enum).take cfg.top_k_initial
  let lexIds := bm25Top.map (fun p => idAt chunks p.1)
  (fusedOrder cfg lexIds vecIds).filterMap (lookupChunk chunks)

/-- `HybridRetriever` state: `__init__` leaves the corpus empty and all
index handles `None`. -/
structure HybridRetrieverState where
  config : RAGConfig
  chunks : List Chunk
  bm25 : Option (List (List (List Char)))
  vector_store : Option (List (List Char))
  embeddings : Option (List Char)

/-- `HybridRetriever(config)`. -/
def mkHybridRetriever (cfg : RAGConfig) : HybridRetrieverState :=
  { config := cfg, chunks := [], bm25 := none, vector_store := none, embeddings := none }

/-- `HybridRetriever.index`: store the chunks, build the BM25 model over the
lowercased whitespace tokenization, load the embedding model and replace
the vector collection with the chunk ids. -/
def retrieverIndex (st : HybridRetrieverState) (chunks : List Chunk) : HybridRetrieverState :=
  { st with
    chunks := chunks,
    bm25 := some (chunks.map (fun c => pySplitWs (pyLower c.content))),
    vector_store := some (chunks.map Chunk.chunk_id),
    embeddings := some st.config.embedding_model }

/-- The AttributeError text raised by `None.get_scores`. -/
def attributeErrorMsg : List Char :=
  "AttributeError: NoneType object has no attribute get_scores".data

/-- `HybridRetriever.retrieve`: before anything else the code evaluates
`self.bm25.get_scores(...)`; on a never-indexed retriever `self.bm25` is
`None` and the attribute access raises.  `bmFn` and `vecFn` are the
external BM25 scorer and vector store. -/
def retrieveExc (bmFn : List (List (List Char)) → List (List Char) → List ℚ)
    (vecFn : List Char → Nat → List (List Char))
    (st : HybridRetrieverState) (query : List Char) : Except (List Char) (List Chunk) :=
  match st.bm25 with
  | none => .error attributeErrorMsg
  | some model =>
    let scores := bmFn model (pySplitWs (pyLower query))
    let vecIds := vecFn query st.config.top_k_initial
    .ok (retrieveCore st.config st.chunks scores vecIds)

/-- `RAGPipeline` state. -/
structure RAGPipelineState where
  config : RAGConfig
  retriever : HybridRetrieverState

/-- `RAGPipeline.__init__(config)`: `config or RAGConfig()`, then the
chunker and retriever are built — with no validation of the options. -/
def mkRAGPipeline (cfg : Option RAGConfig) : RAGPipelineState :=
  let c := cfg.getD defaultRAGConfig
  { config := c, retriever := mkHybridRetriever c }

/-- `RAGPipeline.ingest`: chunk every document and index the concatenation. -/
def ingestChunks (hash : List Char → List Char) (cfg : RAGConfig)
    (docs : List (List Char × Meta)) : List Chunk :=
  docs.foldl (fun acc d => acc ++ chunkDoc hash cfg d.1 d.2) []

/-- `RAGPipeline.ingest` applied to the pipeline state. -/
def pipelineIngest (hash : List Char → List Char) (st : RAGPipelineState)
    (docs : List (List Char × Meta)) : RAGPipelineState :=
  { st with retriever := retrieverIndex st.retriever (ingestChunks hash st.config docs) }

/-- `RAGPipeline._generate_answer` (the demo template). -/
def generateAnswer (query context : List Char) : List Char :=
  "Based on the retrieved context, here is information relevant to: ".data
    ++ '"' :: query ++ '"' :: "\n\nContext Summary:\n".data
    ++ context.take 500
    ++ "...\n\nNote: This is a demo response. In production, replace this with an actual LLM call.".data

/-- The result dict of `RAGPipeline.query`. -/
structure QueryResult where
  answer : List Char
  sources : List (List Char × Meta)
  context_used : Nat
deriving DecidableEq

/-- `RAGPipeline.query`: retrieve (exceptions propagate), assemble the
separator-joined context with 1-based source labels, and report truncated
source previews and the used-chunk count. -/
def pipelineQuery (bmFn : List (List (List Char)) → List (List Char) → List ℚ)
    (vecFn : List Char → Nat → List (List Char))
    (st : RAGPipelineState) (q : List Char) : Except (List Char) QueryResult :=
  match retrieveExc bmFn vecFn st.retriever q with
  | .error e => .error e
  | .ok cs =>
    let context := joinWith "\n\n---\n\n".data
      (cs.enum.map (fun p =>
        "[Source ".data ++ (Nat.repr (p.1 + 1)).data ++ "]\n".data ++ p.2.content))
    .ok { answer := generateAnswer q context,
          sources := cs.map (fun c => (c.content.take 200 ++ "...".data, c.metadata)),
          context_used := cs.length }

/-- Modelled from the spec: the spec lists `rrf_k` ("RRF smoothing constant
(default 60)") as a recognized configuration option; this is the RRF
accumulation loop with the smoothing constant as that configured
parameter. -/
def addContribsFromK (k w : ℚ) : Nat → List (List Char) → List (List Char × ℚ) → List (List Char × ℚ)
  | _, [], m => m
  | r, cid :: rest, m => addContribsFromK k w (r + 1) rest (dictAdd m cid (w / (k + (r : ℚ) + 1)))

/-- Modelled from the spec: score-map construction with a configurable
`rrf_k`, for comparison with the source's `fusedScores`. -/
def fusedScoresSpecK (k wb wv : ℚ) (lexIds vecIds : List (List Char)) : List (List Char × ℚ) :=
  addContribsFromK k wv 0 vecIds (addContribsFromK k wb 0 lexIds [])

/-- The spec's closed-form fused-score contribution of one ranking: the sum
of `1 / (60 + r + 1)` over the 0-based ranks `r` at which `cid` occurs. -/
def rrfRankSum (cid : List Char) : Nat → List (List Char) → ℚ
  | _, [] => 0
  | n, x :: xs => (if x = cid then 1 / (60 + (n : ℚ) + 1) else 0) + rrfRankSum cid (n + 1) xs

/-- The spec's fused-score formula for one ranking, 0-based ranks. -/
def rrfSumSpec (ids : List (List Char)) (cid : List Char) : ℚ := rrfRankSum cid 0 ids

/-- Unit-weight configuration of the spec's RRF scenario. -/
def cfgUnitW : RAGConfig := { bm25_weight := 1, vector_weight := 1 }

/-- The spec scenario's lexical ranking [A, B, C]. -/
def lexC2 : List (List Char) := ["A".data, "B".data, "C".data]

/-- The spec scenario's vector ranking [B, A, D]. -/
def vecC2 : List (List Char) := ["B".data, "A".data, "D".data]

/-- A configuration exercising the min-size filter together with overlap. -/
def cfgDropMid : RAGConfig := { chunk_size := 10, chunk_overlap := 1, min_chunk_size := 8 }

/-- A three-paragraph prose document whose middle chunk falls below the
minimum size. -/
def textDropMid : List Char := "Alpha beta\n\nxx\n\nGamma delta".data

/-- A concrete stand-in for the external digest in closed statements (the
digest only needs to be some function of the content). -/
def idHash (s : List Char) : List Char := s

/-- An invalid configuration per the spec's taxonomy: final cutoff above
initial cutoff and a negative weight. -/
def invalidConfig : RAGConfig :=
  { defaultRAGConfig with top_k_initial := 2, top_k_final := 10, bm25_weight := -1 }

/-- A one-chunk corpus for concrete retrieval runs. -/
def chA : Chunk := { content := "hello".data, metadata := [], chunk_id := "id1".data }

def cfgWit : RAGConfig := { chunk_size := 40, chunk_overlap := 2, min_chunk_size := 5 }
def witText : List Char := "Alpha bravo charlie.".data
def docsWit : List (List Char × Meta) :=
  [(witText, [("src".data, MVal.n 1)]), (witText, [("src".data, MVal.n 2)])]
def witChunk1 : Chunk :=
  { content := witText,
    metadata := [("src".data, MVal.n 1), ("chunk_index".data, MVal.n 0),
                 ("is_code".data, MVal.b false)],
    chunk_id := witText }
def witChunk2 : Chunk :=
  { content := witText,
    metadata := [("src".data, MVal.n 2), ("chunk_index".data, MVal.n 0),
                 ("is_code".data, MVal.b false)],
    chunk_id := witText }

/-- Proof measure: summed rstripped lengths of a chunk list, plus one per
chunk. -/
def rstripCost (l : List (List Char)) : Nat := (l.map (fun c => (rstrip c).length + 1)).sum

/-- Proof measure: cost of an accumulation state of `_chunk_text`. -/
def chunkAccCost (acc : ChunkAcc) : Nat := rstripCost acc.chunks + acc.current.length

/-- Proof measure: paragraph lengths plus the two separator characters each. -/
def paraCost (l : List (List Char)) : Nat := (l.map (fun q => q.length + 2)).sum

/-- Proof measure: sentence lengths plus one separator character each. -/
def sentCost (l : List (List Char)) : Nat := (l.map (fun q => q.length + 1)).sum

/-- The first chunk produced for `textDropMid`, used as a concrete witness. -/
def chunkC7wit : Chunk :=
  { content := "Alpha beta".data,
    metadata := [("chunk_index".data, MVal.n 0), ("is_code".data, MVal.b false)],
    chunk_id := "Alpha beta".data }

/-- Claim C1: the spec requires that a query against a freshly constructed,
never-ingested pipeline return zero sources and an empty context and never
raise; the code instead evaluates `self.bm25.get_scores` with
`self.bm25 = None`, so both `retrieve` and `query` raise an
`AttributeError` — for every external scorer/store and every query. -/
theorem c1_fresh_query_raises
    (bmFn : List (List (List Char)) → List (List Char) → List ℚ)
    (vecFn : List Char → Nat → List (List Char))
    (cfg : Option RAGConfig) (q : List Char) :
    pipelineQuery bmFn vecFn (mkRAGPipeline cfg) q = .error attributeErrorMsg ∧
    retrieveExc bmFn vecFn (mkRAGPipeline cfg).retriever q = .error attributeErrorMsg :=
  ⟨rfl, rfl⟩

/-- Claim C2, counterexample: with lexical ranking [A,B,C], vector ranking
[B,A,D] and both weights 1, A and B receive the same fused score
(1/61 + 1/62 = 123/3782 each), so B is not ranked strictly above A; the
insertion-order tie-break in fact places A first. -/
theorem c2_tie_counterexample :
    scoreGet (fusedScores cfgUnitW lexC2 vecC2) "B".data
      = scoreGet (fusedScores cfgUnitW lexC2 vecC2) "A".data ∧
    fusedOrder cfgUnitW lexC2 vecC2 = ["A".data, "B".data, "C".data, "D".data] := by
  norm_num [fusedScores, addContribsFrom, dictAdd, scoreGet, cfgUnitW, lexC2, vecC2,
    fusedOrder, fusedOrderFull, stableSortDesc, insOrd, List.foldl]

/-- Claim C2 as amended: in the scenario, A and B tie at 1/61 + 1/62 and the
fused output ranks A above B by insertion order; C and D receive only their
single-list contribution 1/63, strictly below the tied fused score of A
and B. -/
theorem c2_amended_scores :
    scoreGet (fusedScores cfgUnitW lexC2 vecC2) "A".data = 1/61 + 1/62 ∧
    scoreGet (fusedScores cfgUnitW lexC2 vecC2) "B".data = 1/61 + 1/62 ∧
    scoreGet (fusedScores cfgUnitW lexC2 vecC2) "C".data = 1/63 ∧
    scoreGet (fusedScores cfgUnitW lexC2 vecC2) "D".data = 1/63 ∧
    (1 : ℚ)/63 < 1/61 + 1/62 ∧
    fusedOrder cfgUnitW lexC2 vecC2 = ["A".data, "B".data, "C".data, "D".data] := by
  norm_num [fusedScores, addContribsFrom, dictAdd, scoreGet, cfgUnitW, lexC2, vecC2,
    fusedOrder, fusedOrderFull, stableSortDesc, insOrd, List.foldl]
  simp

/-- Claim C9: the spec requires invalid configurations (final cutoff above
initial, negative weight) to be rejected at construction; the dataclass and
`RAGPipeline.__init__` validate nothing, so construction succeeds and the
invalid options are stored verbatim. -/
theorem c9_invalid_config_accepted :
    invalidConfig.top_k_initial < invalidConfig.top_k_final ∧
    invalidConfig.bm25_weight < 0 ∧
    (mkRAGPipeline (some invalidConfig)).config = invalidConfig ∧
    (mkRAGPipeline (some invalidConfig)).retriever.config = invalidConfig :=
  ⟨by decide, by decide, rfl, rfl⟩

theorem scoreGet_dictAdd (m : List (List Char × ℚ)) (k k₁ : List Char) (v : ℚ) :
    scoreGet (dictAdd m k v) k₁ = scoreGet m k₁ + (if k = k₁ then v else 0) := by
  induction m with
  | nil => simp [dictAdd, scoreGet]
  | cons p rest ih =>
    obtain ⟨k₂, v₂⟩ := p
    by_cases h2 : k₂ = k
    · subst h2
      by_cases h1 : k₂ = k₁ <;> simp [dictAdd, scoreGet, h1]
    · by_cases h1 : k₂ = k₁
      · have hk : k ≠ k₁ := fun hk => h2 (h1.trans hk.symm)
        simp [dictAdd, scoreGet, h1, h2, hk, Ne.symm hk]
      · simp [dictAdd, scoreGet, h1, h2, ih]

theorem rrfRankSum_of_not_mem {cid : List Char} {ids : List (List Char)} (h : cid ∉ ids) :
    ∀ n, rrfRankSum cid n ids = 0 := by
  induction ids with
  | nil => intro n; simp [rrfRankSum]
  | cons x xs ih =>
    intro n
    have hx : x ≠ cid := fun hh => h (hh ▸ List.mem_cons_self x xs)
    have hxs : cid ∉ xs := fun hh => h (List.mem_cons_of_mem x hh)
    simp [rrfRankSum, hx, ih hxs]

theorem scoreGet_addContribsFrom (w : ℚ) (ids : List (List Char)) :
    ∀ (n : Nat) (m : List (List Char × ℚ)) (cid : List Char),
    scoreGet (addContribsFrom w n ids m) cid = scoreGet m cid + w * rrfRankSum cid n ids := by
  induction ids with
  | nil => intro n m cid; simp [addContribsFrom, rrfRankSum]
  | cons x xs ih =>
    intro n m cid
    rw [addContribsFrom, ih, scoreGet_dictAdd, rrfRankSum]
    by_cases h : x = cid <;> simp [h] <;> ring

/-- Claim C3: for every configuration and every pair of sub-rankings, the
fused score of a chunk id is the weighted sum of the reciprocal-rank terms
`1 / (60 + r + 1)` over its 0-based ranks in each ranking; an id absent
from one ranking receives exactly the other ranking's contribution and no
penalty. -/
theorem c3_fused_score_formula (cfg : RAGConfig) (lex vec : List (List Char)) (cid : List Char) :
    scoreGet (fusedScores cfg lex vec) cid
      = cfg.bm25_weight * rrfSumSpec lex cid + cfg.vector_weight * rrfSumSpec vec cid ∧
    (cid ∉ lex →
      scoreGet (fusedScores cfg lex vec) cid = cfg.vector_weight * rrfSumSpec vec cid) ∧
    (cid ∉ vec →
      scoreGet (fusedScores cfg lex vec) cid = cfg.bm25_weight * rrfSumSpec lex cid) := by
  have hmain : scoreGet (fusedScores cfg lex vec) cid
      = cfg.bm25_weight * rrfSumSpec lex cid + cfg.vector_weight * rrfSumSpec vec cid := by
    rw [fusedScores, scoreGet_addContribsFrom, scoreGet_addContribsFrom]
    simp only [scoreGet, rrfSumSpec]
    ring
  refine ⟨hmain, fun h => ?_, fun h => ?_⟩
  · rw [hmain]; simp only [rrfSumSpec]; rw [rrfRankSum_of_not_mem h]; ring
  · rw [hmain]; simp only [rrfSumSpec]; rw [rrfRankSum_of_not_mem h]; ring

/-- Witness for C3 at the concrete scenario: C occurs only in the lexical
ranking and its fused score is exactly the lexical contribution. -/
theorem c3_witness :
    ("C".data ∉ vecC2) ∧
    scoreGet (fusedScores cfgUnitW lexC2 vecC2) "C".data
      = cfgUnitW.bm25_weight * rrfSumSpec lexC2 "C".data :=
  ⟨by decide, (c3_fused_score_formula cfgUnitW lexC2 vecC2 "C".data).2.2 (by decide)⟩

theorem addContribsFrom_eq_specK (w : ℚ) (ids : List (List Char)) :
    ∀ n m, addContribsFrom w n ids m = addContribsFromK 60 w n ids m := by
  induction ids with
  | nil => intro n m; rfl
  | cons x xs ih => intro n m; rw [addContribsFrom, addContribsFromK, ih]

/-- Claim C5 as amended: the smoothing constant of the fused-score
denominator is hardcoded to 60 inside `retrieve` — for every configuration
the score map equals the spec's `rrf_k`-parameterized fusion instantiated
at 60; the config recognizes no `rrf_k` option. -/
theorem c5_amended_constant_sixty (cfg : RAGConfig) (lex vec : List (List Char)) :
    fusedScores cfg lex vec = fusedScoresSpecK 60 cfg.bm25_weight cfg.vector_weight lex vec := by
  rw [fusedScores, fusedScoresSpecK, addContribsFrom_eq_specK, addContribsFrom_eq_specK]

/-- Claim C5, counterexample: on a one-element lexical ranking with unit
weights the code computes 1/61 (denominator 60 + 0 + 1), which differs from
the contribution under a configured smoothing constant of 10 (1/11) — the
code's constant does not follow any configured `rrf_k`. -/
theorem c5_counterexample :
    scoreGet (fusedScores cfgUnitW ["A".data] []) "A".data = 1/61 ∧
    scoreGet (fusedScoresSpecK 10 1 1 ["A".data] []) "A".data = 1/11 ∧
    ((1 : ℚ)/61) ≠ 1/11 := by
  norm_num [fusedScores, fusedScoresSpecK, addContribsFrom, addContribsFromK, dictAdd,
    scoreGet, cfgUnitW]



theorem insOrd_mem {α : Type} (key : α → ℚ) (x z : α) (l : List α)
    (h : z ∈ insOrd key x l) : z = x ∨ z ∈ l := by
  induction l with
  | nil => simp [insOrd] at h; exact Or.inl h
  | cons y ys ih =>
    rw [insOrd] at h
    by_cases hc : key y < key x
    · simp [hc] at h
      rcases h with h | h | h
      · exact Or.inl h
      · exact Or.inr (by simp [h])
      · exact Or.inr (List.mem_cons_of_mem y h)
    · simp [hc] at h
      rcases h with h | h
      · exact Or.inr (by simp [h])
      · rcases ih h with h1 | h1
        · exact Or.inl h1
        · exact Or.inr (List.mem_cons_of_mem y h1)

theorem insOrd_self_mem {α : Type} (key : α → ℚ) (x : α) (l : List α) :
    x ∈ insOrd key x l := by
  induction l with
  | nil => simp [insOrd]
  | cons y ys ih =>
    rw [insOrd]
    by_cases hc : key y < key x <;> simp [hc]
    exact Or.inr ih

theorem insOrd_sublist {α : Type} (key : α → ℚ) (x : α) (l : List α) :
    l.Sublist (insOrd key x l) := by
  induction l with
  | nil => simp
  | cons y ys ih =>
    rw [insOrd]
    by_cases hc : key y < key x <;> simp [hc]
    exact ih

theorem insOrd_pairwise {α : Type} (key : α → ℚ) (x : α) (l : List α)
    (h : l.Pairwise (fun a b => key b ≤ key a)) :
    (insOrd key x l).Pairwise (fun a b => key b ≤ key a) := by
  induction l with
  | nil => simp [insOrd]
  | cons y ys ih =>
    rw [insOrd]
    rw [List.pairwise_cons] at h
    by_cases hc : key y < key x
    · rw [if_pos hc]
      refine List.Pairwise.cons ?_ (List.Pairwise.cons h.1 h.2)
      intro z hz
      rcases List.mem_cons.mp hz with hz | hz
      · subst hz; exact le_of_lt hc
      · exact le_trans (h.1 z hz) (le_of_lt hc)
    · rw [if_neg hc]
      refine List.Pairwise.cons ?_ (ih h.2)
      intro z hz
      rcases insOrd_mem key x z ys hz with h1 | h1
      · subst h1; exact le_of_not_lt hc
      · exact h.1 z h1

theorem insOrd_two_sublist {α : Type} (key : α → ℚ) (x a : α) (l : List α)
    (hp : l.Pairwise (fun a b => key b ≤ key a)) (ha : a ∈ l) (hk : key x ≤ key a) :
    ([a, x]).Sublist (insOrd key x l) := by
  induction l with
  | nil => simp at ha
  | cons y ys ih =>
    rw [List.pairwise_cons] at hp
    rw [insOrd]
    by_cases hc : key y < key x
    · exfalso
      have hay : key a ≤ key y := by
        rcases List.mem_cons.mp ha with h1 | h1
        · exact le_of_eq (by rw [h1])
        · exact hp.1 a h1
      exact absurd (lt_of_le_of_lt (le_trans hk hay) hc) (lt_irrefl _)
    · rw [if_neg hc]
      rcases List.mem_cons.mp ha with h1 | h1
      · subst h1
        exact List.Sublist.cons₂ a (List.singleton_sublist.mpr (insOrd_self_mem key x ys))
      · exact List.Sublist.cons y (ih hp.2 h1)

theorem foldl_insOrd_pairwise {α : Type} (key : α → ℚ) (l : List α) :
    ∀ acc, acc.Pairwise (fun a b => key b ≤ key a) →
    (l.foldl (fun acc x => insOrd key x acc) acc).Pairwise (fun a b => key b ≤ key a) := by
  induction l with
  | nil => intro acc h; exact h
  | cons x xs ih => intro acc h; exact ih _ (insOrd_pairwise key x acc h)

theorem foldl_insOrd_stable {α : Type} (key : α → ℚ) (a b : α) (hk : key a = key b) :
    ∀ (l acc : List α), acc.Pairwise (fun a b => key b ≤ key a) →
    (([a, b]).Sublist acc ∨ (a ∈ acc ∧ b ∈ l) ∨ ([a, b]).Sublist l) →
    ([a, b]).Sublist (l.foldl (fun acc x => insOrd key x acc) acc) := by
  intro l
  induction l with
  | nil =>
    intro acc hp h
    rcases h with h | h | h
    · exact h
    · simp at h
    · simp at h
  | cons x xs ih =>
    intro acc hp h
    rw [List.foldl_cons]
    refine ih (insOrd key x acc) (insOrd_pairwise key x acc hp) ?_
    rcases h with h | ⟨ha, hb⟩ | h
    · exact Or.inl (h.trans (insOrd_sublist key x acc))
    · rcases List.mem_cons.mp hb with hb | hb
      · subst hb
        exact Or.inl (insOrd_two_sublist key b a acc hp ha (le_of_eq hk.symm))
      · exact Or.inr (Or.inl ⟨(insOrd_sublist key x acc).subset ha, hb⟩)
    · cases h with
      | cons _ h2 => exact Or.inr (Or.inr h2)
      | cons₂ _ h2 =>
        exact Or.inr (Or.inl ⟨insOrd_self_mem key a acc, List.singleton_sublist.mp h2⟩)

theorem stableSortDesc_stable {α : Type} (key : α → ℚ) (a b : α) (l : List α)
    (hk : key a = key b) (h : ([a, b]).Sublist l) :
    ([a, b]).Sublist (stableSortDesc key l) :=
  foldl_insOrd_stable key a b hk l [] (List.Pairwise.nil) (Or.inr (Or.inr h))

theorem insOrd_perm {α : Type} (key : α → ℚ) (x : α) (l : List α) :
    (insOrd key x l).Perm (x :: l) := by
  induction l with
  | nil => simp [insOrd]
  | cons y ys ih =>
    rw [insOrd]
    by_cases hc : key y < key x
    · rw [if_pos hc]
    · rw [if_neg hc]
      exact (List.Perm.cons y ih).trans (List.Perm.swap x y ys)

theorem foldl_insOrd_perm {α : Type} (key : α → ℚ) :
    ∀ (l acc : List α), (l.foldl (fun acc x => insOrd key x acc) acc).Perm (acc ++ l) := by
  intro l
  induction l with
  | nil => intro acc; simp
  | cons x xs ih =>
    intro acc
    rw [List.foldl_cons]
    refine (ih (insOrd key x acc)).trans ?_
    have h1 : (insOrd key x acc ++ xs).Perm ((x :: acc) ++ xs) :=
      (insOrd_perm key x acc).append_right xs
    refine h1.trans ?_
    simp only [List.cons_append]
    exact List.perm_middle.symm


theorem stableSortDesc_perm {α : Type} (key : α → ℚ) (l : List α) :
    (stableSortDesc key l).Perm l := by
  have := foldl_insOrd_perm key l []
  simpa [stableSortDesc] using this

theorem dictAdd_keys (k : List Char) (v : ℚ) :
    ∀ m : List (List Char × ℚ), (dictAdd m k v).map Prod.fst =
      if k ∈ m.map Prod.fst then m.map Prod.fst else m.map Prod.fst ++ [k] := by
  intro m
  induction m with
  | nil => simp [dictAdd]
  | cons p rest ih =>
    obtain ⟨k₁, v₁⟩ := p
    by_cases h : k₁ = k
    · subst h; simp [dictAdd]
    · have hne : ¬ k = k₁ := fun hh => h hh.symm
      by_cases hm : k ∈ rest.map Prod.fst <;> simp [dictAdd, h, hne, hm, ih]

theorem dictAdd_keys_nodup (m : List (List Char × ℚ)) (k : List Char) (v : ℚ)
    (h : (m.map Prod.fst).Nodup) : ((dictAdd m k v).map Prod.fst).Nodup := by
  rw [dictAdd_keys]
  by_cases hm : k ∈ m.map Prod.fst
  · simpa [hm] using h
  · rw [if_neg hm]
    refine List.Nodup.append h (List.nodup_singleton k) ?_
    intro a ha hb
    simp at hb
    subst hb
    exact hm ha

theorem addContribsFrom_keys_nodup (w : ℚ) (ids : List (List Char)) :
    ∀ (n : Nat) (m : List (List Char × ℚ)), (m.map Prod.fst).Nodup →
    ((addContribsFrom w n ids m).map Prod.fst).Nodup := by
  induction ids with
  | nil => intro n m h; exact h
  | cons x xs ih =>
    intro n m h
    exact ih _ _ (dictAdd_keys_nodup m x _ h)

theorem fusedScores_keys_nodup (cfg : RAGConfig) (lex vec : List (List Char)) :
    ((fusedScores cfg lex vec).map Prod.fst).Nodup := by
  refine addContribsFrom_keys_nodup _ _ _ _ (addContribsFrom_keys_nodup _ _ _ _ ?_)
  simp

theorem fusedOrderFull_nodup (cfg : RAGConfig) (lex vec : List (List Char)) :
    (fusedOrderFull cfg lex vec).Nodup := by
  have hperm : (stableSortDesc Prod.snd (fusedScores cfg lex vec)).Perm (fusedScores cfg lex vec) :=
    stableSortDesc_perm _ _
  have := (hperm.map Prod.fst).nodup_iff.mpr (fusedScores_keys_nodup cfg lex vec)
  simpa [fusedOrderFull] using this

theorem lookupChunk_id (chunks : List Chunk) (cid : List Char) (c : Chunk)
    (h : lookupChunk chunks cid = some c) : c.chunk_id = cid := by
  have := List.find?_some h
  simpa using this

theorem lookupChunk_mem (chunks : List Chunk) (cid : List Char) (c : Chunk)
    (h : lookupChunk chunks cid = some c) : c ∈ chunks := by
  have := List.mem_of_find?_eq_some h
  simpa using this

theorem filterMap_lookup_ids (chunks : List Chunk) :
    ∀ tk : List (List Char),
      ((tk.filterMap (lookupChunk chunks)).map Chunk.chunk_id)
        = tk.filter (fun cid => (lookupChunk chunks cid).isSome) := by
  intro tk
  induction tk with
  | nil => simp
  | cons cid rest ih =>
    rcases h : lookupChunk chunks cid with _ | c
    · simp [List.filterMap_cons, h, ih, List.filter_cons]
    · simp [List.filterMap_cons, h, ih, List.filter_cons, lookupChunk_id chunks cid c h]

/-- Claim C4: `retrieve`'s fusion is deterministic — identical inputs yield
the identical ordered output — and entries of the score map with equal
fused scores keep their first-insertion order (lexical entries in rank
order, then vector entries) in the sorted fused ranking; there is no
hash-order nondeterminism. -/
theorem c4_deterministic_stable_ties :
    (∀ (cfg : RAGConfig) (chunks : List Chunk) (scores : List ℚ) (vecIds : List (List Char)),
      retrieveCore cfg chunks scores vecIds = retrieveCore cfg chunks scores vecIds) ∧
    (∀ (cfg : RAGConfig) (lex vec : List (List Char)) (p q : List Char × ℚ),
      ([p, q]).Sublist (fusedScores cfg lex vec) → p.2 = q.2 →
      ([p.1, q.1]).Sublist (fusedOrderFull cfg lex vec)) := by
  refine ⟨fun _ _ _ _ => rfl, fun cfg lex vec p q hsub heq => ?_⟩
  have hs := stableSortDesc_stable Prod.snd p q (fusedScores cfg lex vec) heq hsub
  have hm := hs.map Prod.fst
  simpa [fusedOrderFull] using hm

/-- Witness for C4: with one-element rankings [A] and [B] both ids tie at
1/61 and the fused order keeps A (inserted first) before B. -/
theorem c4_witness :
    ([(("A".data, (1:ℚ)/61)), (("B".data, (1:ℚ)/61))]).Sublist
      (fusedScores cfgUnitW ["A".data] ["B".data]) ∧
    (("A".data, (1:ℚ)/61) : List Char × ℚ).2 = (("B".data, (1:ℚ)/61) : List Char × ℚ).2 ∧
    (["A".data, "B".data]).Sublist (fusedOrderFull cfgUnitW ["A".data] ["B".data]) := by
  have hm : fusedScores cfgUnitW ["A".data] ["B".data]
      = [("A".data, (1:ℚ)/61), ("B".data, (1:ℚ)/61)] := by
    norm_num [fusedScores, addContribsFrom, dictAdd, cfgUnitW]
    decide
  have hsub : ([(("A".data, (1:ℚ)/61)), (("B".data, (1:ℚ)/61))]).Sublist
      (fusedScores cfgUnitW ["A".data] ["B".data]) := by
    rw [hm]
  exact ⟨hsub, rfl,
    c4_deterministic_stable_ties.2 cfgUnitW ["A".data] ["B".data] _ _ hsub rfl⟩

/-- Claim C10: for every indexed chunk list and query scores, `retrieve`
returns at most `top_k_final` chunks, with pairwise-distinct chunk ids,
every one drawn from the indexed chunk list (fused ids with no matching
chunk are silently skipped). -/
theorem c10_retrieve_invariants (cfg : RAGConfig) (chunks : List Chunk)
    (scores : List ℚ) (vecIds : List (List Char)) :
    (retrieveCore cfg chunks scores vecIds).length ≤ cfg.top_k_final ∧
    ((retrieveCore cfg chunks scores vecIds).map Chunk.chunk_id).Nodup ∧
    (∀ c, c ∈ retrieveCore cfg chunks scores vecIds → c ∈ chunks) := by
  have hcore : retrieveCore cfg chunks scores vecIds
      = (fusedOrder cfg
          (((stableSortDesc Prod.snd scores.enum).take cfg.top_k_initial).map
            (fun p => idAt chunks p.1)) vecIds).filterMap (lookupChunk chunks) := rfl
  set lexIds := ((stableSortDesc Prod.snd scores.enum).take cfg.top_k_initial).map
    (fun p => idAt chunks p.1) with hlex
  have htknd : (fusedOrder cfg lexIds vecIds).Nodup :=
    (List.take_sublist _ _).nodup (fusedOrderFull_nodup cfg lexIds vecIds)
  refine ⟨?_, ?_, ?_⟩
  · rw [hcore]
    refine le_trans (List.length_filterMap_le _ _) ?_
    rw [fusedOrder]
    refine le_trans (List.length_take_le _ _) (le_refl _)
  · rw [hcore, filterMap_lookup_ids]
    exact htknd.filter _
  · intro c hc
    rw [hcore] at hc
    rcases List.mem_filterMap.mp hc with ⟨cid, _, hfind⟩
    exact lookupChunk_mem chunks cid c hfind

/-- Witness for C10 on a concrete one-chunk corpus. -/
theorem c10_witness :
    chA ∈ retrieveCore defaultRAGConfig [chA] [5] ["id1".data] ∧ chA ∈ [chA] := by
  have hr : retrieveCore defaultRAGConfig [chA] [5] ["id1".data] = [chA] := by
    norm_num [retrieveCore, fusedOrder, fusedOrderFull, fusedScores, addContribsFrom,
      dictAdd, stableSortDesc, insOrd, List.foldl, lookupChunk, idAt, chA,
      defaultRAGConfig, List.enum, List.enumFrom, List.filterMap, List.find?]
  constructor
  · exact (c10_retrieve_invariants defaultRAGConfig [chA] [5] ["id1".data]).2.2 chA
      (by rw [hr]; exact List.mem_singleton.mpr rfl)
  · exact List.mem_singleton.mpr rfl

theorem chunkDoc_mem_shape (hash : List Char → List Char) (cfg : RAGConfig)
    (text : List Char) (meta : Meta) (c : Chunk) (hc : c ∈ chunkDoc hash cfg text meta) :
    ∃ raw ∈ rawChunks cfg text,
      c.content = pyStrip raw ∧ c.chunk_id = hash (pyStrip raw) ∧
      cfg.min_chunk_size ≤ (pyStrip raw).length := by
  rcases List.mem_filterMap.mp hc with ⟨p, hp, hsome⟩
  by_cases hmin : cfg.min_chunk_size ≤ (pyStrip p.2).length
  · rw [if_pos hmin] at hsome
    refine ⟨p.2, ?_, ?_⟩
    · have := List.enum_map_snd (rawChunks cfg text)
      rw [← this]
      exact List.mem_map_of_mem Prod.snd hp
    · injection hsome with h
      subst h
      exact ⟨rfl, rfl, hmin⟩
  · rw [if_neg hmin] at hsome
    exact absurd hsome (by simp)

theorem chunkDoc_mem_id (hash : List Char → List Char) (cfg : RAGConfig)
    (text : List Char) (meta : Meta) (c : Chunk) (hc : c ∈ chunkDoc hash cfg text meta) :
    c.chunk_id = hash c.content := by
  rcases chunkDoc_mem_shape hash cfg text meta c hc with ⟨raw, _, h1, h2, _⟩
  rw [h1, h2]

theorem ingestChunks_mem (hash : List Char → List Char) (cfg : RAGConfig) (c : Chunk) :
    ∀ (docs : List (List Char × Meta)) (acc : List Chunk),
    c ∈ docs.foldl (fun a d => a ++ chunkDoc hash cfg d.1 d.2) acc →
    c ∈ acc ∨ ∃ d ∈ docs, c ∈ chunkDoc hash cfg d.1 d.2 := by
  intro docs
  induction docs with
  | nil => intro acc h; exact Or.inl h
  | cons d ds ih =>
    intro acc h
    rcases ih _ h with h1 | ⟨d₁, hd₁, hcd⟩
    · rcases List.mem_append.mp h1 with h2 | h2
      · exact Or.inl h2
      · exact Or.inr ⟨d, List.mem_cons_self d ds, h2⟩
    · exact Or.inr ⟨d₁, List.mem_cons_of_mem d hd₁, hcd⟩

theorem ingestChunks_mem_id (hash : List Char → List Char) (cfg : RAGConfig)
    (docs : List (List Char × Meta)) (c : Chunk) (hc : c ∈ ingestChunks hash cfg docs) :
    c.chunk_id = hash c.content := by
  rcases ingestChunks_mem hash cfg c docs [] hc with h | ⟨d, _, hcd⟩
  · simp at h
  · exact chunkDoc_mem_id hash cfg d.1 d.2 c hcd

/-- Claim C8: re-ingesting the same document set leaves the indexed corpus
(chunk boundaries and ids) unchanged, and chunk ids are a pure function of
content: any two corpus chunks with identical post-trim content carry the
same id. -/
theorem c8_idempotent_content_ids (hash : List Char → List Char) (st : RAGPipelineState)
    (docs : List (List Char × Meta)) :
    (pipelineIngest hash (pipelineIngest hash st docs) docs).retriever.chunks
      = (pipelineIngest hash st docs).retriever.chunks ∧
    (∀ c c', c ∈ ingestChunks hash st.config docs → c' ∈ ingestChunks hash st.config docs →
      c.content = c'.content → c.chunk_id = c'.chunk_id) := by
  refine ⟨rfl, fun c c' hc hc' heq => ?_⟩
  rw [ingestChunks_mem_id hash st.config docs c hc,
    ingestChunks_mem_id hash st.config docs c' hc', heq]

/-- Witness for C8: two documents with identical text but different caller
metadata yield distinct chunks with identical content and identical ids. -/
theorem c8_witness :
    witChunk1 ∈ ingestChunks idHash (mkRAGPipeline (some cfgWit)).config docsWit ∧
    witChunk2 ∈ ingestChunks idHash (mkRAGPipeline (some cfgWit)).config docsWit ∧
    witChunk1.content = witChunk2.content ∧
    witChunk1.chunk_id = witChunk2.chunk_id :=
  ⟨by decide, by decide, by decide,
    (c8_idempotent_content_ids idHash (mkRAGPipeline (some cfgWit)) docsWit).2
      witChunk1 witChunk2 (by decide) (by decide) (by decide)⟩

theorem overlapRest_getElem? (n : Nat) :
    ∀ (l : List (List Char)) (prev : List Char) (i : Nat) (c p : List Char),
    l[i]? = some c → (prev :: l)[i]? = some p →
    (overlapRest n prev l)[i]? = some (joinWith [' '] (lastWords n p) ++ ' ' :: c) := by
  intro l
  induction l with
  | nil => intro prev i c p h _; simp at h
  | cons x xs ih =>
    intro prev i c p hc hp
    cases i with
    | zero =>
      rw [List.getElem?_cons_zero] at hc hp
      injection hc with hc
      injection hp with hp
      subst hc; subst hp
      rw [overlapRest, List.getElem?_cons_zero]
    | succ j =>
      rw [List.getElem?_cons_succ] at hc hp
      rw [overlapRest, List.getElem?_cons_succ]
      exact ih x j c p hc hp

/-- Claim C6 as amended: in the prose path (the code path inserts no
overlap), with positive `chunk_overlap` every chunk after the first of the
candidate sequence equals the trailing `chunk_overlap` words of its raw
(pre-overlap) predecessor joined by single spaces, a space, then the raw
chunk; the first candidate is the unprefixed first raw chunk.  The
min-size filter applied afterwards may drop candidates, so a returned
chunk's overlap words come from its raw predecessor, not necessarily from
the previously returned chunk. -/
theorem c6_overlap_from_raw_predecessor (cfg : RAGConfig) (text : List Char)
    (hov : 0 < cfg.chunk_overlap) (hcode : isCode text = false) :
    rawChunks cfg text = addOverlap cfg.chunk_overlap (chunkTextRaw cfg text) ∧
    (rawChunks cfg text)[0]? = (chunkTextRaw cfg text)[0]? ∧
    (∀ (i : Nat) (p c : List Char),
      (chunkTextRaw cfg text)[i]? = some p → (chunkTextRaw cfg text)[i+1]? = some c →
      (rawChunks cfg text)[i+1]?
        = some (joinWith [' '] (lastWords cfg.chunk_overlap p) ++ ' ' :: c)) := by
  have hne : cfg.chunk_overlap ≠ 0 := Nat.pos_iff_ne_zero.mp hov
  have hraw : rawChunks cfg text = addOverlap cfg.chunk_overlap (chunkTextRaw cfg text) := by
    rw [rawChunks, hcode]
    rfl
  refine ⟨hraw, ?_, ?_⟩
  · rw [hraw]
    cases h : chunkTextRaw cfg text with
    | nil => rw [addOverlap]
    | cons r0 rest =>
      rw [addOverlap, if_neg hne, List.getElem?_cons_zero, List.getElem?_cons_zero]
  · intro i p c hp hc
    rw [hraw]
    cases h : chunkTextRaw cfg text with
    | nil => rw [h] at hp; simp at hp
    | cons r0 rest =>
      rw [h] at hp hc
      rw [addOverlap, if_neg hne, List.getElem?_cons_succ]
      rw [List.getElem?_cons_succ] at hc
      exact overlapRest_getElem? cfg.chunk_overlap rest r0 i c p hc hp

/-- Claim C6, counterexample to the claim over returned chunks: with
chunk_size 10, overlap 1 and min size 8 the document yields raw chunks
["Alpha beta\n\n", "xx\n\n", "Gamma delta "]; the middle candidate
("beta xx") is dropped by the filter, so of the two returned chunks the
second begins with "xx" (the trailing word of the dropped raw chunk), not
with "beta", the trailing overlap word of the previous returned chunk's
pre-overlap content. -/
theorem c6_returned_chunks_counterexample :
    (chunkDoc idHash cfgDropMid textDropMid []).map Chunk.content
      = ["Alpha beta".data, "xx Gamma delta".data] ∧
    chunkTextRaw cfgDropMid textDropMid
      = ["Alpha beta\n\n".data, "xx\n\n".data, "Gamma delta ".data] ∧
    lastWords cfgDropMid.chunk_overlap "Alpha beta\n\n".data = ["beta".data] ∧
    beginsWith "beta".data "xx Gamma delta".data = false ∧
    0 < cfgDropMid.chunk_overlap := by
  refine ⟨by decide, by decide, by decide, by decide, by decide⟩

/-- Witness for C6 on the same document: the second candidate is the first
raw chunk's trailing word, a space, then the second raw chunk. -/
theorem c6_witness :
    (0 < cfgDropMid.chunk_overlap) ∧ (isCode textDropMid = false) ∧
    (chunkTextRaw cfgDropMid textDropMid)[0]? = some "Alpha beta\n\n".data ∧
    (chunkTextRaw cfgDropMid textDropMid)[1]? = some "xx\n\n".data ∧
    (rawChunks cfgDropMid textDropMid)[1]? = some "beta xx\n\n".data := by
  refine ⟨by decide, by decide, by decide, by decide, ?_⟩
  have h := (c6_overlap_from_raw_predecessor cfgDropMid textDropMid (by decide)
      (by decide)).2.2 0 "Alpha beta\n\n".data "xx\n\n".data (by decide) (by decide)
  rw [h]
  decide

theorem dropWhile_le_len (p : Char → Bool) (l : List Char) :
    (l.dropWhile p).length ≤ l.length := by
  induction l with
  | nil => simp
  | cons c cs ih =>
    rw [List.dropWhile_cons]
    by_cases h : p c = true
    · simp only [h, if_true]
      exact le_trans ih (Nat.le_succ _)
    · simp [h]

theorem rstrip_le_len (s : List Char) : (rstrip s).length ≤ s.length := by
  rw [rstrip, List.length_reverse]
  calc (s.reverse.dropWhile pyIsSpace).length ≤ s.reverse.length := dropWhile_le_len _ _
  _ = s.length := List.length_reverse s

theorem dropWhile_idem (p : Char → Bool) (l : List Char) :
    (l.dropWhile p).dropWhile p = l.dropWhile p := by
  induction l with
  | nil => simp
  | cons c cs ih =>
    rw [List.dropWhile_cons]
    by_cases h : p c = true
    · simp only [h, if_true]; exact ih
    · simp [List.dropWhile_cons, h]

theorem rstrip_cons_len_le (c : Char) (cs : List Char) :
    (rstrip (c :: cs)).length ≤ (rstrip cs).length + 1 := by
  rw [rstrip, rstrip, List.reverse_cons, List.dropWhile_append]
  by_cases h : (cs.reverse.dropWhile pyIsSpace).isEmpty = true
  · rw [if_pos h]
    have : (List.dropWhile pyIsSpace [c]).length ≤ 1 := dropWhile_le_len _ _
    simp only [List.length_reverse]
    omega
  · rw [if_neg h]
    simp [List.length_reverse, List.length_append]

theorem rstrip_cons_len_ge (c : Char) (cs : List Char) :
    (rstrip cs).length ≤ (rstrip (c :: cs)).length := by
  rw [rstrip, rstrip, List.reverse_cons, List.dropWhile_append]
  by_cases h : (cs.reverse.dropWhile pyIsSpace).isEmpty = true
  · rw [if_pos h]
    rw [List.isEmpty_iff] at h
    simp [h]
  · rw [if_neg h]
    simp [List.length_reverse, List.length_append]

theorem rstrip_cons_of_ne_nil (c : Char) (cs : List Char) (h : rstrip cs ≠ []) :
    (rstrip (c :: cs)).length = (rstrip cs).length + 1 := by
  rw [rstrip, rstrip, List.reverse_cons, List.dropWhile_append]
  have h2 : ¬ (cs.reverse.dropWhile pyIsSpace).isEmpty = true := by
    rw [List.isEmpty_iff]
    intro hh
    exact h (by rw [rstrip, hh, List.reverse_nil])
  rw [if_neg h2]
  simp [List.length_reverse, List.length_append]

theorem rstrip_cons_of_not_space (c : Char) (cs : List Char) (h : pyIsSpace c = false) :
    (rstrip (c :: cs)).length = (rstrip cs).length + 1 := by
  rw [rstrip, rstrip, List.reverse_cons, List.dropWhile_append]
  by_cases h2 : (cs.reverse.dropWhile pyIsSpace).isEmpty = true
  · rw [if_pos h2]
    rw [List.isEmpty_iff] at h2
    simp [List.dropWhile_cons, h, h2]
  · rw [if_neg h2]
    simp [List.length_reverse, List.length_append]

theorem rstrip_append_le (a b : List Char) :
    (rstrip (a ++ b)).length ≤ a.length + (rstrip b).length := by
  rw [rstrip, rstrip, List.reverse_append, List.dropWhile_append]
  by_cases h : (b.reverse.dropWhile pyIsSpace).isEmpty = true
  · rw [if_pos h]
    have := dropWhile_le_len pyIsSpace a.reverse
    simp only [List.length_reverse] at this ⊢
    omega
  · rw [if_neg h]
    simp [List.length_reverse, List.length_append]

theorem rstrip_append_nl2 (a : List Char) : rstrip (a ++ ['\n', '\n']) = rstrip a := by
  rw [rstrip, rstrip, List.reverse_append]
  norm_num [List.dropWhile_cons, pyIsSpace]

theorem rstrip_append_space (a : List Char) : rstrip (a ++ [' ']) = rstrip a := by
  rw [rstrip, rstrip, List.reverse_append]
  norm_num [List.dropWhile_cons, pyIsSpace]

theorem pyStrip_le_rstrip (s : List Char) : (pyStrip s).length ≤ (rstrip s).length := by
  induction s with
  | nil => simp [pyStrip]
  | cons c cs ih =>
    rw [pyStrip, List.dropWhile_cons]
    by_cases h : pyIsSpace c = true
    · rw [if_pos h]
      exact le_trans ih (rstrip_cons_len_ge c cs)
    · rw [if_neg h]

theorem pyStrip_le_len (s : List Char) : (pyStrip s).length ≤ s.length := by
  calc (pyStrip s).length ≤ (s.dropWhile pyIsSpace).length := rstrip_le_len _
  _ ≤ s.length := dropWhile_le_len _ _

theorem dropWhile_head_shape (p : Char → Bool) (l : List Char) :
    l.dropWhile p = [] ∨ ∃ a t, l.dropWhile p = a :: t ∧ p a = false := by
  induction l with
  | nil => exact Or.inl rfl
  | cons c cs ih =>
    rw [List.dropWhile_cons]
    by_cases h : p c = true
    · rw [if_pos h]; exact ih
    · rw [if_neg h]
      exact Or.inr ⟨c, cs, rfl, by simpa using h⟩

theorem dropWhile_suffix_decomp (p : Char → Bool) (l : List Char) :
    ∃ t, l = t ++ l.dropWhile p := by
  induction l with
  | nil => exact ⟨[], rfl⟩
  | cons c cs ih =>
    rw [List.dropWhile_cons]
    by_cases h : p c = true
    · rw [if_pos h]
      rcases ih with ⟨t, ht⟩
      exact ⟨c :: t, by rw [List.cons_append, ← ht]⟩
    · rw [if_neg h]
      exact ⟨[], rfl⟩

theorem rstrip_prefix_decomp (l : List Char) : ∃ t, l = rstrip l ++ t := by
  rcases dropWhile_suffix_decomp pyIsSpace l.reverse with ⟨t, ht⟩
  refine ⟨t.reverse, ?_⟩
  have := congrArg List.reverse ht
  rw [List.reverse_reverse, List.reverse_append] at this
  rw [rstrip]
  exact this

theorem rstrip_idem (l : List Char) : rstrip (rstrip l) = rstrip l := by
  rw [rstrip, rstrip, List.reverse_reverse, dropWhile_idem]

theorem pyStrip_idem (s : List Char) : pyStrip (pyStrip s) = pyStrip s := by
  have hdw : (pyStrip s).dropWhile pyIsSpace = pyStrip s := by
    rw [pyStrip]
    rcases dropWhile_head_shape pyIsSpace s with h | ⟨a, t, h, ha⟩
    · rw [h]
      simp [rstrip]
    · rw [h]
      rcases rstrip_prefix_decomp (a :: t) with ⟨t2, ht2⟩
      cases hr : rstrip (a :: t) with
      | nil => simp
      | cons b r =>
        have hb : b = a := by
          rw [hr] at ht2
          injection ht2 with hh _
          exact hh.symm
        subst hb
        rw [List.dropWhile_cons, if_neg (by simp [ha])]
  rw [pyStrip, hdw, pyStrip, rstrip_idem]


theorem rstripCost_append (l₁ l₂ : List (List Char)) :
    rstripCost (l₁ ++ l₂) = rstripCost l₁ + rstripCost l₂ := by
  simp [rstripCost]

theorem rstripCost_mem (c : List Char) (l : List (List Char)) (h : c ∈ l) :
    (rstrip c).length + 1 ≤ rstripCost l := by
  induction l with
  | nil => simp at h
  | cons x xs ih =>
    rcases List.mem_cons.mp h with h1 | h1
    · subst h1
      simp [rstripCost]
    · have := ih h1
      simp [rstripCost] at this ⊢
      omega

theorem rstripCost_adjacent (p c : List Char) :
    ∀ (l : List (List Char)) (i : Nat), l[i]? = some p → l[i+1]? = some c →
    ((rstrip p).length + 1) + ((rstrip c).length + 1) ≤ rstripCost l := by
  intro l
  induction l with
  | nil => intro i h; simp at h
  | cons x xs ih =>
    intro i hp hc
    cases i with
    | zero =>
      rw [List.getElem?_cons_zero] at hp
      injection hp with hp
      subst hp
      rw [List.getElem?_cons_succ] at hc
      have hmem : c ∈ xs := by
        rcases List.getElem?_eq_some.mp hc with ⟨hlt, hget⟩
        exact hget ▸ List.getElem_mem _
      have := rstripCost_mem c xs hmem
      simp [rstripCost] at this ⊢
      omega
    | succ j =>
      rw [List.getElem?_cons_succ] at hp hc
      have := ih j hp hc
      simp [rstripCost] at this ⊢
      omega

theorem paraCost_splitParasAux (s acc : List Char) :
    paraCost (splitParasAux s acc) = acc.length + s.length + 2 := by
  induction s, acc using splitParasAux.induct with
  | case1 acc => simp [splitParasAux, paraCost]
  | case2 cs acc ih =>
    rw [show splitParasAux ('\n' :: '\n' :: cs) acc = acc.reverse :: splitParasAux cs [] from rfl]
    simp only [paraCost, List.map_cons, List.sum_cons] at ih ⊢
    simp at ih ⊢
    omega
  | case3 c cs acc h ih =>
    rw [splitParasAux.eq_def]
    split
    next heq => exact absurd heq (by simp)
    next cs2 heq =>
      exfalso
      injection heq with h1 h2
      exact h cs2 h1 h2
    next x y z heq2 hne =>
      injection hne with h1 h2
      subst h1
      subst h2
      simp only [List.length_cons] at ih ⊢
      omega

theorem splitSentencesAux_cons (c : Char) (cs : List Char) (sk : Bool) (acc : List Char) :
    splitSentencesAux (c :: cs) sk acc =
      if sk && pyIsSpace c then splitSentencesAux cs true acc
      else if pyIsSpace c && (match acc with | p :: _ => isSentEnd p | [] => false) then
        acc.reverse :: splitSentencesAux cs true []
      else splitSentencesAux cs false (c :: acc) := rfl

theorem splitParas_ne_nil (t : List Char) : splitParas t ≠ [] := by
  intro h
  have hc := paraCost_splitParasAux t []
  rw [splitParas] at h
  rw [h] at hc
  simp [paraCost] at hc

theorem sentCost_splitSentencesAux :
    ∀ (s : List Char) (sk : Bool) (acc : List Char),
    sentCost (splitSentencesAux s sk acc) ≤ acc.length + s.length + 1 := by
  intro s
  induction s with
  | nil => intro sk acc; simp [splitSentencesAux, sentCost]
  | cons c cs ih =>
    intro sk acc
    rw [splitSentencesAux_cons]
    by_cases h1 : (sk && pyIsSpace c) = true
    · rw [if_pos h1]
      have := ih true acc
      simp only [List.length_cons]
      omega
    · rw [if_neg h1]
      by_cases h2 : (pyIsSpace c && (match acc with | p :: _ => isSentEnd p | [] => false)) = true
      · rw [if_pos h2]
        have := ih true []
        simp only [sentCost, List.map_cons, List.sum_cons, List.length_reverse,
          List.length_cons, List.length_nil] at this ⊢
        omega
      · rw [if_neg h2]
        have := ih false (c :: acc)
        simp only [List.length_cons] at this ⊢
        omega

theorem splitSentencesAux_ne_nil :
    ∀ (s : List Char) (sk : Bool) (acc : List Char), splitSentencesAux s sk acc ≠ [] := by
  intro s
  induction s with
  | nil => intro sk acc; simp [splitSentencesAux]
  | cons c cs ih =>
    intro sk acc
    rw [splitSentencesAux_cons]
    by_cases h1 : (sk && pyIsSpace c) = true
    · rw [if_pos h1]; exact ih true acc
    · rw [if_neg h1]
      by_cases h2 : (pyIsSpace c && (match acc with | p :: _ => isSentEnd p | [] => false)) = true
      · rw [if_pos h2]; simp
      · rw [if_neg h2]; exact ih false (c :: acc)

theorem splitSentences_ne_nil (p : List Char) : splitSentences p ≠ [] :=
  splitSentencesAux_ne_nil p false []

theorem joinWith_cons_le (sep x : List Char) (l : List (List Char)) :
    (joinWith sep l).length ≤ (joinWith sep (x :: l)).length := by
  cases l with
  | nil => simp [joinWith]
  | cons y ys =>
    rw [show joinWith sep (x :: y :: ys) = x ++ sep ++ joinWith sep (y :: ys) from rfl]
    simp only [List.length_append]
    omega

theorem joinWith_sublist_le (sep : List Char) {s l : List (List Char)} (h : s.Sublist l) :
    (joinWith sep s).length ≤ (joinWith sep l).length := by
  induction h with
  | slnil => simp
  | cons a h ih => exact le_trans ih (joinWith_cons_le sep a _)
  | @cons₂ s₁ l₁ a h ih =>
    cases s₁ with
    | nil =>
      cases l₁ with
      | nil => simp
      | cons z zs =>
        rw [show joinWith sep (a :: z :: zs) = a ++ sep ++ joinWith sep (z :: zs) from rfl]
        simp [joinWith]
    | cons y ys =>
      cases l₁ with
      | nil => simp at h
      | cons z zs =>
        rw [show joinWith sep (a :: y :: ys) = a ++ sep ++ joinWith sep (y :: ys) from rfl,
          show joinWith sep (a :: z :: zs) = a ++ sep ++ joinWith sep (z :: zs) from rfl]
        simp only [List.length_append]
        omega

theorem splitLinesAux_ne_nil : ∀ (s acc : List Char), splitLinesAux s acc ≠ [] := by
  intro s
  induction s with
  | nil => intro acc; simp [splitLinesAux]
  | cons c cs ih =>
    intro acc
    rw [splitLinesAux]
    by_cases h : c = '\n'
    · rw [if_pos h]; simp
    · rw [if_neg h]; exact ih (c :: acc)

theorem joinWith_splitLinesAux :
    ∀ (s acc : List Char), joinWith ['\n'] (splitLinesAux s acc) = acc.reverse ++ s := by
  intro s
  induction s with
  | nil => intro acc; simp [splitLinesAux, joinWith]
  | cons c cs ih =>
    intro acc
    rw [splitLinesAux]
    by_cases h : c = '\n'
    · rw [if_pos h]
      have hne := splitLinesAux_ne_nil cs []
      cases hrest : splitLinesAux cs [] with
      | nil => exact absurd hrest hne
      | cons r rs =>
        rw [show joinWith ['\n'] (acc.reverse :: r :: rs)
            = acc.reverse ++ ['\n'] ++ joinWith ['\n'] (r :: rs) from rfl]
        have h2 := ih []
        rw [hrest] at h2
        rw [h2, h]
        simp
    · rw [if_neg h]
      rw [ih (c :: acc)]
      simp

theorem joinWith_splitLines (t : List Char) : joinWith ['\n'] (splitLines t) = t := by
  have := joinWith_splitLinesAux t []
  simpa [splitLines] using this

theorem splitWsAux_ne_nil_rstrip :
    ∀ (s : List Char), splitWsAux s [] ≠ [] → rstrip s ≠ [] := by
  intro s
  induction s with
  | nil => intro h; simp [splitWsAux] at h
  | cons c cs ih =>
    intro h
    by_cases hp : pyIsSpace c = true
    · rw [splitWsAux, if_pos hp, if_pos rfl] at h
      have h2 := ih h
      have h3 := rstrip_cons_of_ne_nil c cs h2
      intro hnil
      rw [hnil] at h3
      simp at h3

    · have h3 := rstrip_cons_of_not_space c cs (by simpa using hp)
      intro hnil
      rw [hnil] at h3
      simp at h3

theorem splitWsAux_join_le : ∀ (s acc : List Char),
    (joinWith [' '] (splitWsAux s acc)).length ≤ acc.length + (rstrip s).length := by
  intro s
  induction s with
  | nil =>
    intro acc
    rw [splitWsAux]
    by_cases h : acc = ([] : List Char)
    · rw [if_pos h]; simp [joinWith]
    · rw [if_neg h]; simp [joinWith]
  | cons c cs ih =>
    intro acc
    rw [splitWsAux]
    by_cases hp : pyIsSpace c = true
    · rw [if_pos hp]
      by_cases ha : acc = ([] : List Char)
      · rw [if_pos ha]
        have h1 := ih []
        have h2 := rstrip_cons_len_ge c cs
        subst ha
        simp only [List.length_nil] at h1 ⊢
        omega
      · rw [if_neg ha]
        cases hrest : splitWsAux cs [] with
        | nil =>
          rw [show joinWith [' '] [acc.reverse] = acc.reverse from rfl]
          simp
        | cons r rs =>
          rw [show joinWith [' '] (acc.reverse :: r :: rs)
              = acc.reverse ++ [' '] ++ joinWith [' '] (r :: rs) from rfl]
          have h1 := ih []
          rw [hrest] at h1
          have h2 : rstrip cs ≠ [] :=
            splitWsAux_ne_nil_rstrip cs (by rw [hrest]; simp)
          have h3 := rstrip_cons_of_ne_nil c cs h2
          simp only [List.length_append, List.length_reverse, List.length_nil,
            List.length_cons] at h1 h3 ⊢
          omega
    · rw [if_neg hp]
      have h1 := ih (c :: acc)
      have h3 := rstrip_cons_of_not_space c cs (by simpa using hp)
      simp only [List.length_cons] at h1 ⊢
      omega

theorem lastWords_join_le (n : Nat) (s : List Char) :
    (joinWith [' '] (lastWords n s)).length ≤ (rstrip s).length := by
  have h1 : (lastWords n s).Sublist (pySplitWs s) := by
    rw [lastWords]
    exact List.drop_sublist _ _
  refine le_trans (joinWith_sublist_le [' '] h1) ?_
  have := splitWsAux_join_le s []
  simpa [pySplitWs] using this

theorem procSentence_step (size : Nat) (acc : ChunkAcc) (s : List Char)
    (hws : acc.current = [] ∨ (rstrip acc.current).length + 1 ≤ acc.current.length) :
    chunkAccCost (procSentence size acc s) ≤ chunkAccCost acc + (s.length + 1) ∧
    (procSentence size acc s).current ≠ [] ∧
    (rstrip (procSentence size acc s).current).length + 1
      ≤ (procSentence size acc s).current.length := by
  rw [procSentence]
  by_cases h : acc.current.length + s.length ≤ size
  · rw [if_pos h]
    refine ⟨?_, by simp, ?_⟩
    · simp only [chunkAccCost, List.length_append, List.length_cons, List.length_nil]
      omega
    · have h1 : acc.current ++ s ++ [' '] = (acc.current ++ s) ++ [' '] := by
        simp [List.append_assoc]
      simp only [h1, rstrip_append_space, List.length_append, List.length_cons,
        List.length_nil]
      have h2 := rstrip_append_le acc.current s
      have h3 := rstrip_le_len s
      omega
  · rw [if_neg h]
    refine ⟨?_, by simp, ?_⟩
    · simp only [chunkAccCost, rstripCost_append, List.length_append, List.length_cons,
        List.length_nil]
      by_cases hcur : acc.current = ([] : List Char)
      · rw [if_pos hcur]
        simp [rstripCost]
      · rw [if_neg hcur]
        rcases hws with hws | hws
        · exact absurd hws hcur
        · simp only [rstripCost, List.map_cons, List.sum_cons, List.map_nil,
            List.sum_nil]
          omega
    · have h1 : s ++ [' '] = s ++ [' '] := rfl
      simp only [rstrip_append_space, List.length_append, List.length_cons,
        List.length_nil]
      have h3 := rstrip_le_len s
      omega

theorem sentFold_cost (size : Nat) (sents : List (List Char)) :
    ∀ acc : ChunkAcc,
    (acc.current = [] ∨ (rstrip acc.current).length + 1 ≤ acc.current.length) →
    chunkAccCost (sents.foldl (procSentence size) acc) ≤ chunkAccCost acc + sentCost sents ∧
    ((sents.foldl (procSentence size) acc).current = [] ∨
      (rstrip (sents.foldl (procSentence size) acc).current).length + 1
        ≤ (sents.foldl (procSentence size) acc).current.length) ∧
    ((sents.foldl (procSentence size) acc).current = [] →
      acc.current = [] ∧ sents = []) := by
  induction sents with
  | nil =>
    intro acc hws
    refine ⟨by simp [sentCost], hws, fun h => ⟨h, rfl⟩⟩
  | cons s rest ih =>
    intro acc hws
    rw [List.foldl_cons]
    rcases procSentence_step size acc s hws with ⟨hc, hne, hws2⟩
    rcases ih (procSentence size acc s) (Or.inr hws2) with ⟨ihc, ihws, ihnil⟩
    refine ⟨?_, ihws, ?_⟩
    · simp only [sentCost, List.map_cons, List.sum_cons] at ihc ⊢
      omega
    · intro h
      exact absurd (ihnil h).1 hne

theorem procPara_step (size : Nat) (acc : ChunkAcc) (p : List Char)
    (hws : acc.current = [] ∨ (rstrip acc.current).length + 1 ≤ acc.current.length) :
    chunkAccCost (procPara size acc p) ≤ chunkAccCost acc + (p.length + 2) ∧
    (procPara size acc p).current ≠ [] ∧
    (rstrip (procPara size acc p).current).length + 1 ≤ (procPara size acc p).current.length ∧
    ((rstrip (procPara size acc p).current).length + 2 ≤ (procPara size acc p).current.length ∨
      chunkAccCost (procPara size acc p) + 1 ≤ chunkAccCost acc + (p.length + 2)) := by
  rw [procPara]
  by_cases h : acc.current.length + p.length ≤ size
  · rw [if_pos h]
    have h1 : acc.current ++ p ++ ['\n', '\n'] = (acc.current ++ p) ++ ['\n', '\n'] := by
      simp [List.append_assoc]
    have h2 := rstrip_append_le acc.current p
    have h3 := rstrip_le_len p
    refine ⟨?_, by simp, ?_, Or.inl ?_⟩ <;>
      simp only [h1, chunkAccCost, rstrip_append_nl2, List.length_append,
        List.length_cons, List.length_nil] <;> omega
  · rw [if_neg h]
    have hbase : rstripCost (acc.chunks ++ (if acc.current = [] then [] else [acc.current]))
        ≤ rstripCost acc.chunks + acc.current.length := by
      rw [rstripCost_append]
      by_cases hcur : acc.current = ([] : List Char)
      · rw [if_pos hcur]
        simp [rstripCost]
      · rw [if_neg hcur]
        rcases hws with hws | hws
        · exact absurd hws hcur
        · simp only [rstripCost, List.map_cons, List.sum_cons, List.map_nil,
            List.sum_nil]
          omega
    by_cases hlong : size < p.length
    · rw [if_pos hlong]
      rcases sentFold_cost size (splitSentences p)
          { chunks := acc.chunks ++ (if acc.current = [] then [] else [acc.current]),
            current := [] } (Or.inl rfl) with ⟨hc, hws2, hnil⟩
      have hsent := sentCost_splitSentencesAux p false []
      have hnonnil : ((splitSentences p).foldl (procSentence size)
          { chunks := acc.chunks ++ (if acc.current = [] then [] else [acc.current]),
            current := ([] : List Char) }).current ≠ [] := by
        intro hh
        exact splitSentences_ne_nil p (hnil hh).2
      rcases hws2 with hws2 | hws2
      · exact absurd hws2 hnonnil
      · refine ⟨?_, hnonnil, hws2, Or.inr ?_⟩ <;>
          · simp only [chunkAccCost, sentCost, splitSentences, List.length_nil,
              Nat.add_zero] at hc hsent hbase ⊢
            omega
    · rw [if_neg hlong]
      have h3 := rstrip_le_len p
      refine ⟨?_, by simp, ?_, Or.inl ?_⟩ <;>
        · simp only [chunkAccCost, rstrip_append_nl2, List.length_append,
            List.length_cons, List.length_nil] at hbase ⊢
          omega

theorem paraFold_cost (size : Nat) (paras : List (List Char)) (acc : ChunkAcc)
    (hws : acc.current = [] ∨ (rstrip acc.current).length + 1 ≤ acc.current.length) :
    chunkAccCost (paras.foldl (procPara size) acc) ≤ chunkAccCost acc + paraCost paras ∧
    ((paras.foldl (procPara size) acc).current = [] ∨
      (rstrip (paras.foldl (procPara size) acc).current).length + 1
        ≤ (paras.foldl (procPara size) acc).current.length) ∧
    ((paras.foldl (procPara size) acc).current = [] → acc.current = [] ∧ paras = []) ∧
    (paras ≠ [] →
      ((rstrip (paras.foldl (procPara size) acc).current).length + 2
          ≤ (paras.foldl (procPara size) acc).current.length ∨
        chunkAccCost (paras.foldl (procPara size) acc) + 1
          ≤ chunkAccCost acc + paraCost paras)) := by
  induction paras using List.reverseRecOn with
  | nil =>
    refine ⟨by simp [paraCost], hws, fun h => ⟨h, rfl⟩, fun h => absurd rfl h⟩
  | append_singleton init p ih =>
    rw [List.foldl_append, List.foldl_cons, List.foldl_nil]
    rcases ih with ⟨ihc, ihws, _, _⟩
    rcases procPara_step size (init.foldl (procPara size) acc) p ihws with
      ⟨hc, hne, hws2, hdisj⟩
    have hpc : paraCost (init ++ [p]) = paraCost init + (p.length + 2) := by
      simp [paraCost]
    refine ⟨by omega, Or.inr hws2, fun h => absurd h hne, fun _ => ?_⟩
    rcases hdisj with hd | hd
    · exact Or.inl hd
    · exact Or.inr (by omega)

theorem rstripCost_chunkTextRaw (cfg : RAGConfig) (text : List Char) :
    rstripCost (chunkTextRaw cfg text) ≤ text.length + 1 := by
  rcases paraFold_cost cfg.chunk_size (splitParas text) ⟨[], []⟩ (Or.inl rfl) with
    ⟨hc, hws, hnil, hlast⟩
  have hpc : paraCost (splitParas text) = text.length + 2 := by
    have := paraCost_splitParasAux text []
    simpa [splitParas] using this
  have hne : ((splitParas text).foldl (procPara cfg.chunk_size) ⟨[], []⟩).current ≠ [] := by
    intro h
    exact splitParas_ne_nil text (hnil h).2
  have hcost0 : chunkAccCost (⟨[], []⟩ : ChunkAcc) = 0 := by
    simp [chunkAccCost, rstripCost]
  have hsing : ∀ x : List Char, rstripCost [x] = (rstrip x).length + 1 := by
    intro x; simp [rstripCost]
  rw [chunkTextRaw]
  rw [if_neg hne, rstripCost_append, hsing]
  rw [hcost0, hpc] at hc
  simp only [chunkAccCost] at hc
  rcases hws with hws | hws
  · exact absurd hws hne
  rcases hlast (splitParas_ne_nil text) with hd | hd
  · omega
  · rw [hcost0, hpc] at hd
    simp only [chunkAccCost] at hd
    omega

theorem overlapRest_mem (n : Nat) :
    ∀ (l : List (List Char)) (prev c : List Char), c ∈ overlapRest n prev l →
    ∃ (i : Nat) (p ci : List Char), (prev :: l)[i]? = some p ∧ (prev :: l)[i+1]? = some ci ∧
      c = joinWith [' '] (lastWords n p) ++ ' ' :: ci := by
  intro l
  induction l with
  | nil => intro prev c h; simp [overlapRest] at h
  | cons x xs ih =>
    intro prev c h
    rw [overlapRest] at h
    rcases List.mem_cons.mp h with h1 | h1
    · exact ⟨0, prev, x, rfl, by simp, h1⟩
    · rcases ih x c h1 with ⟨i, p, ci, hp, hc, heq⟩
      exact ⟨i + 1, p, ci, by rw [List.getElem?_cons_succ]; exact hp,
        by rw [List.getElem?_cons_succ]; exact hc, heq⟩

theorem mem_cost_le (c : List Char) (l : List (List Char)) (h : c ∈ l) (bound : Nat)
    (hb : rstripCost l ≤ bound + 1) : (pyStrip c).length ≤ bound := by
  have h1 := pyStrip_le_rstrip c
  have h2 := rstripCost_mem c l h
  omega

theorem prose_candidate_le (cfg : RAGConfig) (text : List Char) (c : List Char)
    (hc : c ∈ chunkText cfg text) : (pyStrip c).length ≤ text.length := by
  have hbound := rstripCost_chunkTextRaw cfg text
  rw [chunkText] at hc
  cases hraw : chunkTextRaw cfg text with
  | nil => rw [hraw, addOverlap] at hc; simp at hc
  | cons r0 rest =>
    rw [hraw] at hc hbound
    rw [addOverlap] at hc
    by_cases hz : cfg.chunk_overlap = 0
    · rw [if_pos hz] at hc
      exact mem_cost_le c _ hc text.length hbound
    · rw [if_neg hz] at hc
      rcases List.mem_cons.mp hc with h1 | h1
      · subst h1
        exact mem_cost_le c _ (List.mem_cons_self _ _) text.length hbound
      · rcases overlapRest_mem cfg.chunk_overlap rest r0 c h1 with ⟨i, p, ci, hp, hci, heq⟩
        have hadj := rstripCost_adjacent p ci (r0 :: rest) i hp hci
        have hA := lastWords_join_le cfg.chunk_overlap p
        have hstrip := pyStrip_le_rstrip c
        have hr1 : (rstrip c).length
            ≤ (joinWith [' '] (lastWords cfg.chunk_overlap p)).length + (rstrip ci).length + 1 := by
          rw [heq]
          have := rstrip_append_le (joinWith [' '] (lastWords cfg.chunk_overlap p)) (' ' :: ci)
          have h2 := rstrip_cons_len_le ' ' ci
          omega
        omega

theorem procCodeLine_cases (size : Nat) (acc : CodeAcc) (line : List Char) :
    ((procCodeLine size acc line).cur = [] ∨
     (procCodeLine size acc line).cur = acc.cur ++ [line] ∨
     (procCodeLine size acc line).cur = [line]) ∧
    (∀ c ∈ (procCodeLine size acc line).chunks,
      c ∈ acc.chunks ∨ c = joinWith ['\n'] acc.cur ∨
      c = joinWith ['\n'] (acc.cur ++ [line]) ∨ c = joinWith ['\n'] [line]) := by
  rw [procCodeLine]
  by_cases h1 : ((codeBoundaryKws.any (fun kw => beginsWith kw (pyStrip line))) = true)
      ∧ acc.cur ≠ []
  · rw [if_pos h1]
    dsimp only
    by_cases h2 : size ≤ 0 + (line.length + 1)
    · rw [if_pos h2]
      refine ⟨Or.inl rfl, fun c hc => ?_⟩
      rcases List.mem_append.mp hc with hc1 | hc1
      · rcases List.mem_append.mp hc1 with hc2 | hc2
        · exact Or.inl hc2
        · exact Or.inr (Or.inl (by simpa using hc2))
      · simp only [List.nil_append] at hc1
        exact Or.inr (Or.inr (Or.inr (by simpa using hc1)))
    · rw [if_neg h2]
      refine ⟨Or.inr (Or.inr rfl), fun c hc => ?_⟩
      rcases List.mem_append.mp hc with hc1 | hc1
      · exact Or.inl hc1
      · exact Or.inr (Or.inl (by simpa using hc1))
  · rw [if_neg h1]
    dsimp only
    by_cases h2 : size ≤ acc.curSize + (line.length + 1)
    · rw [if_pos h2]
      refine ⟨Or.inl rfl, fun c hc => ?_⟩
      rcases List.mem_append.mp hc with hc1 | hc1
      · exact Or.inl hc1
      · exact Or.inr (Or.inr (Or.inl (by simpa using hc1)))
    · rw [if_neg h2]
      exact ⟨Or.inr (Or.inl rfl), fun c hc => Or.inl hc⟩

theorem codeFold_shape (size : Nat) :
    ∀ (rem : List (List Char)) (acc : CodeAcc) (pre : List (List Char)),
    acc.cur.Sublist pre →
    (∀ c ∈ acc.chunks, ∃ b, b.Sublist pre ∧ c = joinWith ['\n'] b) →
    (∀ c ∈ (rem.foldl (procCodeLine size) acc).chunks,
      ∃ b, b.Sublist (pre ++ rem) ∧ c = joinWith ['\n'] b) ∧
    ((rem.foldl (procCodeLine size) acc).cur.Sublist (pre ++ rem)) := by
  intro rem
  induction rem with
  | nil =>
    intro acc pre hcur hchunks
    simpa using ⟨hchunks, hcur⟩
  | cons line rest ih =>
    intro acc pre hcur hchunks
    rw [List.foldl_cons]
    rcases procCodeLine_cases size acc line with ⟨hcurcase, hchunkcase⟩
    have hpre1 : pre.Sublist (pre ++ [line]) := List.sublist_append_left pre [line]
    have hstep1 : (procCodeLine size acc line).cur.Sublist (pre ++ [line]) := by
      rcases hcurcase with h | h | h <;> rw [h]
      · exact List.nil_sublist _
      · exact List.Sublist.append hcur (List.Sublist.refl [line])
      · exact List.Sublist.append (List.nil_sublist pre) (List.Sublist.refl [line])
    have hstep2 : ∀ c ∈ (procCodeLine size acc line).chunks,
        ∃ b, b.Sublist (pre ++ [line]) ∧ c = joinWith ['\n'] b := by
      intro c hc
      rcases hchunkcase c hc with h | h | h | h
      · rcases hchunks c h with ⟨b, hb, heq⟩
        exact ⟨b, hb.trans hpre1, heq⟩
      · exact ⟨acc.cur, hcur.trans hpre1, h⟩
      · exact ⟨acc.cur ++ [line], List.Sublist.append hcur (List.Sublist.refl [line]), h⟩
      · exact ⟨[line], List.Sublist.append (List.nil_sublist pre) (List.Sublist.refl [line]), h⟩
    have hmain := ih (procCodeLine size acc line) (pre ++ [line]) hstep1 hstep2
    rw [List.append_assoc] at hmain
    simpa using hmain

theorem chunkCode_mem (cfg : RAGConfig) (text : List Char) (c : List Char)
    (hc : c ∈ chunkCode cfg text) :
    ∃ b, b.Sublist (splitLines text) ∧ c = joinWith ['\n'] b := by
  rw [chunkCode] at hc
  rcases codeFold_shape cfg.chunk_size (splitLines text) ⟨[], [], 0⟩ []
      (List.nil_sublist []) (by simp) with ⟨hchunks, hcur⟩
  simp only [List.nil_append] at hchunks hcur
  rcases List.mem_append.mp hc with h1 | h1
  · exact hchunks c h1
  · by_cases hnil : ((splitLines text).foldl (procCodeLine cfg.chunk_size) ⟨[], [], 0⟩).cur = []
    · rw [if_pos hnil] at h1
      simp at h1
    · rw [if_neg hnil] at h1
      simp only [List.mem_singleton] at h1
      exact ⟨_, hcur, h1⟩

theorem code_candidate_le (cfg : RAGConfig) (text : List Char) (c : List Char)
    (hc : c ∈ chunkCode cfg text) : (pyStrip c).length ≤ text.length := by
  rcases chunkCode_mem cfg text c hc with ⟨b, hb, heq⟩
  have h1 := pyStrip_le_len c
  have h2 := joinWith_sublist_le ['\n'] hb
  have h3 := joinWith_splitLines text
  rw [heq]
  have h4 : (joinWith ['\n'] (splitLines text)).length = text.length := by rw [h3]
  have h5 := pyStrip_le_len (joinWith ['\n'] b)
  omega

theorem rawChunks_strip_le (cfg : RAGConfig) (text : List Char) (c : List Char)
    (hc : c ∈ rawChunks cfg text) : (pyStrip c).length ≤ text.length := by
  rw [rawChunks] at hc
  by_cases h : isCode text = true
  · rw [if_pos h] at hc
    exact code_candidate_le cfg text c hc
  · rw [if_neg h] at hc
    exact prose_candidate_le cfg text c hc

theorem chunkDoc_eq_nil_of_small (hash : List Char → List Char) (cfg : RAGConfig)
    (text : List Char) (meta : Meta) (h : text.length < cfg.min_chunk_size) :
    chunkDoc hash cfg text meta = [] := by
  rw [chunkDoc, List.filterMap_eq_nil_iff]
  intro p hp
  rw [if_neg]
  intro hmin
  have hmem : p.2 ∈ rawChunks cfg text := by
    have := List.enum_map_snd (rawChunks cfg text)
    rw [← this]
    exact List.mem_map_of_mem Prod.snd hp
  have hb := rawChunks_strip_le cfg text p.2 hmem
  omega


/-- Claim C7: every chunk returned by `chunk` has whitespace-trimmed,
non-empty content of length at least `min_chunk_size` (assuming a positive
configured minimum), obtained by trimming exactly one raw candidate (no
merging); an input shorter than the minimum produces zero chunks, and in
particular empty input produces zero chunks. -/
theorem c7_min_size_invariant (hash : List Char → List Char) (cfg : RAGConfig)
    (text : List Char) (meta : Meta) (hmin : 1 ≤ cfg.min_chunk_size) :
    (∀ c ∈ chunkDoc hash cfg text meta,
      pyStrip c.content = c.content ∧ c.content ≠ [] ∧
      cfg.min_chunk_size ≤ c.content.length ∧
      ∃ raw ∈ rawChunks cfg text, c.content = pyStrip raw) ∧
    (text.length < cfg.min_chunk_size → chunkDoc hash cfg text meta = []) ∧
    chunkDoc hash cfg [] meta = [] := by
  refine ⟨fun c hc => ?_, fun h => chunkDoc_eq_nil_of_small hash cfg text meta h, ?_⟩
  · rcases chunkDoc_mem_shape hash cfg text meta c hc with ⟨raw, hraw, hcon, _, hlen⟩
    refine ⟨?_, ?_, ?_, raw, hraw, hcon⟩
    · rw [hcon, pyStrip_idem]
    · intro hnil
      rw [hcon] at hnil
      rw [hnil] at hlen
      simp at hlen
      omega
    · rw [hcon]; exact hlen
  · exact chunkDoc_eq_nil_of_small hash cfg [] meta (by simpa using hmin)

/-- Witness for C7 on a concrete document and configuration. -/
theorem c7_witness :
    (1 ≤ cfgDropMid.min_chunk_size) ∧
    (chunkC7wit ∈ chunkDoc idHash cfgDropMid textDropMid []) ∧
    (pyStrip chunkC7wit.content = chunkC7wit.content ∧ chunkC7wit.content ≠ [] ∧
      cfgDropMid.min_chunk_size ≤ chunkC7wit.content.length ∧
      ∃ raw ∈ rawChunks cfgDropMid textDropMid, chunkC7wit.content = pyStrip raw) ∧
    chunkDoc idHash cfgDropMid [] [] = [] :=
  ⟨by decide, by decide,
    (c7_min_size_invariant idHash cfgDropMid textDropMid [] (by decide)).1
      chunkC7wit (by decide),
    (c7_min_size_invariant idHash cfgDropMid [] [] (by decide)).2.2⟩
